import Mathlib

/-!
Verification of the `shamed` wall-of-shame daemon (src/shamed.py).

The daemon is three timed loops sharing a queue and a store:
  * `poll_thread_main` (Sampler): snapshots the process table, filters,
    accumulates per-user shame in a `defaultdict(int)`, and emits one
    `ShameRecord` per user into the queue with a shared cycle timestamp;
  * `write_thread_main` (Persister): drains the queue into a local batch
    and, if non-empty, inserts each record as one row under a single
    connect/commit/close;
  * `report_thread_main` (Reporter): reads all rows, aggregates shame by
    username, sorts descending (Python's stable sort over dict insertion
    order), takes the top 10 and rewrites the leaderboard file.

Everything below is a shallow embedding of that code: Python dicts become
association lists preserving insertion order, the stable descending sort
becomes a stable insertion sort, the queue/persister concurrency becomes
an interleaving step machine, and file/database effects become explicit
values (returned strings, effect lists).
-/

/-- One process as seen by the sampler via psutil: owning username,
executable name, niceness, and last-used CPU core index (`cpu_num`). -/
structure Proc where
  username : String
  name : String
  nice : Int
  cpu_num : Int
  deriving Repr, DecidableEq

/-- The `ShameRecord` namedtuple of shamed.py (also the row shape of the
`shame` table: `timestamp INT, username TEXT, shame INT`). -/
structure ShameRecord where
  timestamp : Int
  username : String
  shame : Int
  deriving Repr, DecidableEq

/-- The filter at src/shamed.py:30-31: a process is scored iff its
niceness is non-negative, its username is not blacklisted and its
executable name is not blacklisted. -/
def survives (ub nb : List String) (p : Proc) : Bool :=
  decide (0 ≤ p.nice) && !(ub.contains p.username) && !(nb.contains p.name)

/-- The per-process score `(20 - proc.nice()) * proc.cpu_num()` from
src/shamed.py:32. -/
def score (p : Proc) : Int :=
  (20 - p.nice) * p.cpu_num

/-- Adding `s` into key `u` of an association list the way
`defaultdict(int)` with `+=` does: update the existing entry in place,
or append a fresh entry at the end (Python dicts preserve insertion
order). -/
def addShame : List (String × Int) → String → Int → List (String × Int)
  | [], u, s => [(u, s)]
  | (k, v) :: rest, u, s =>
      if k = u then (k, v + s) :: rest else (k, v) :: addShame rest u s

/-- One iteration of the loop at src/shamed.py:29-32: score the process
into the accumulator if it passes the filter, else leave the accumulator
unchanged. -/
def pollStep (ub nb : List String) (acc : List (String × Int)) (p : Proc) :
    List (String × Int) :=
  if survives ub nb p then addShame acc p.username (score p) else acc

/-- The accumulation loop of src/shamed.py:27-32: fold the process list
into the per-username shame dictionary, scoring only surviving
processes. -/
def buildShame (ub nb : List String) (procs : List Proc) : List (String × Int) :=
  procs.foldl (pollStep ub nb) []

/-- One full poll cycle (src/shamed.py:27-40): build the shame dictionary
and emit one `ShameRecord` per username, all carrying the shared cycle
timestamp, in dictionary (insertion) order. -/
def pollCycle (ub nb : List String) (procs : List Proc) (ts : Int) : List ShameRecord :=
  (buildShame ub nb procs).map (fun kv => ⟨ts, kv.1, kv.2⟩)

/-- Number of entries of an association list carrying key `u`. -/
def countFor (l : List (String × Int)) (u : String) : Nat :=
  (l.filter (fun kv => kv.1 = u)).length

/-- Sum of the values of an association list at key `u`. -/
def totalFor (l : List (String × Int)) (u : String) : Int :=
  ((l.filter (fun kv => kv.1 = u)).map (fun kv => kv.2)).sum

/-- Total score a username earns from the surviving processes of a
snapshot. -/
def userScore (ub nb : List String) (procs : List Proc) (u : String) : Int :=
  ((procs.filter (fun p => survives ub nb p && p.username = u)).map score).sum

/-- Whether some surviving process of the snapshot belongs to `u`. -/
def ownsSurviving (ub nb : List String) (procs : List Proc) (u : String) : Bool :=
  procs.any (fun p => survives ub nb p && p.username = u)

theorem countFor_nil (u : String) : countFor [] u = 0 := rfl

theorem countFor_cons (k : String) (v : Int) (rest : List (String × Int)) (u : String) :
    countFor ((k, v) :: rest) u = (if k = u then 1 else 0) + countFor rest u := by
  by_cases h : k = u <;> simp [countFor, List.filter_cons, h] <;> omega

theorem totalFor_nil (u : String) : totalFor [] u = 0 := rfl

theorem totalFor_cons (k : String) (v : Int) (rest : List (String × Int)) (u : String) :
    totalFor ((k, v) :: rest) u = (if k = u then v else 0) + totalFor rest u := by
  by_cases h : k = u <;> simp [totalFor, List.filter_cons, h]

theorem addShame_cons_eq (k : String) (v : Int) (rest : List (String × Int)) (s : Int) :
    addShame ((k, v) :: rest) k s = (k, v + s) :: rest := by
  simp [addShame]

theorem addShame_cons_ne (k : String) (v : Int) (rest : List (String × Int)) (u : String)
    (s : Int) (h : ¬ k = u) : addShame ((k, v) :: rest) u s = (k, v) :: addShame rest u s := by
  simp [addShame, h]

theorem countFor_addShame (l : List (String × Int)) (u u' : String) (s : Int) :
    countFor (addShame l u s) u' =
      if u' = u ∧ countFor l u = 0 then countFor l u' + 1 else countFor l u' := by
  induction l with
  | nil =>
      by_cases h : u' = u
      · simp [addShame, countFor_nil, countFor_cons, h]
      · have h2 : ¬ u = u' := fun hh => h hh.symm
        simp [addShame, countFor_nil, countFor_cons, h, h2]
  | cons kv rest ih =>
      obtain ⟨k, v⟩ := kv
      by_cases hk : k = u
      · subst hk
        rw [addShame_cons_eq]
        have hc : ¬ (u' = k ∧ countFor ((k, v) :: rest) k = 0) := by
          rintro ⟨-, h0⟩
          rw [countFor_cons, if_pos rfl] at h0
          omega
        rw [if_neg hc, countFor_cons, countFor_cons]
      · rw [addShame_cons_ne k v rest u s hk]
        by_cases h1 : u' = u
        · subst h1
          by_cases h0 : countFor rest u' = 0 <;>
            simp [countFor_cons, ih, hk, h0]
        · simp [countFor_cons, ih, hk, h1]

theorem totalFor_addShame (l : List (String × Int)) (u u' : String) (s : Int) :
    totalFor (addShame l u s) u' = totalFor l u' + if u' = u then s else 0 := by
  induction l with
  | nil =>
      by_cases h : u' = u
      · simp [addShame, totalFor_nil, totalFor_cons, h]
      · have h2 : ¬ u = u' := fun hh => h hh.symm
        simp [addShame, totalFor_nil, totalFor_cons, h, h2]
  | cons kv rest ih =>
      obtain ⟨k, v⟩ := kv
      by_cases hk : k = u
      · subst hk
        rw [addShame_cons_eq, totalFor_cons, totalFor_cons]
        split_ifs with h1 h2 h3
        · ring
        · exact absurd h1.symm h2
        · exact absurd h3.symm h1
        · ring
      · rw [addShame_cons_ne k v rest u s hk, totalFor_cons, totalFor_cons, ih]
        ring

theorem countFor_pos_of_mem {l : List (String × Int)} {u : String} {s : Int}
    (h : (u, s) ∈ l) : 1 ≤ countFor l u := by
  induction l with
  | nil => cases h
  | cons kv rest ih =>
      obtain ⟨k, v⟩ := kv
      rw [countFor_cons]
      rcases List.mem_cons.mp h with h' | h'
      · injection h' with hk hv
        rw [if_pos hk.symm]
        omega
      · have := ih h'
        omega

theorem totalFor_eq_zero {l : List (String × Int)} {u : String}
    (h : countFor l u = 0) : totalFor l u = 0 := by
  induction l with
  | nil => rfl
  | cons kv rest ih =>
      obtain ⟨k, v⟩ := kv
      rw [countFor_cons] at h
      rw [totalFor_cons]
      by_cases hk : k = u
      · rw [if_pos hk] at h
        omega
      · rw [if_neg hk] at h ⊢
        rw [ih (by omega)]
        ring

theorem totalFor_eq_of_mem {l : List (String × Int)} {u : String} {s : Int}
    (hmem : (u, s) ∈ l) (hc : countFor l u ≤ 1) : totalFor l u = s := by
  induction l with
  | nil => cases hmem
  | cons kv rest ih =>
      obtain ⟨k, v⟩ := kv
      rw [countFor_cons] at hc
      rw [totalFor_cons]
      rcases List.mem_cons.mp hmem with h' | h'
      · injection h' with hk hv
        rw [if_pos hk.symm] at hc ⊢
        have h0 : countFor rest u = 0 := by omega
        rw [totalFor_eq_zero h0, hv]
        ring
      · by_cases hk : k = u
        · have := countFor_pos_of_mem h'
          rw [if_pos hk] at hc
          omega
        · rw [if_neg hk] at hc ⊢
          rw [ih h' (by omega)]
          ring

theorem exists_mem_of_countFor_pos {l : List (String × Int)} {u : String}
    (h : 1 ≤ countFor l u) : ∃ s, (u, s) ∈ l := by
  induction l with
  | nil => simp [countFor_nil] at h
  | cons kv rest ih =>
      obtain ⟨k, v⟩ := kv
      rw [countFor_cons] at h
      by_cases hk : k = u
      · exact ⟨v, by rw [hk]; exact List.mem_cons_self _ _⟩
      · rw [if_neg hk] at h
        obtain ⟨s, hs⟩ := ih (by omega)
        exact ⟨s, List.mem_cons_of_mem _ hs⟩

theorem ownsSurviving_cons (ub nb : List String) (p : Proc) (procs : List Proc)
    (u : String) :
    ownsSurviving ub nb (p :: procs) u =
      ((survives ub nb p && p.username = u) || ownsSurviving ub nb procs u) := by
  simp [ownsSurviving, List.any_cons]

theorem countFor_pollStep (ub nb : List String) (acc : List (String × Int)) (p : Proc)
    (u : String) :
    countFor (pollStep ub nb acc p) u =
      if (survives ub nb p && p.username = u) = true ∧ countFor acc u = 0 then
        countFor acc u + 1
      else countFor acc u := by
  rw [pollStep]
  by_cases hs : survives ub nb p = true
  · rw [if_pos hs, countFor_addShame]
    by_cases hu : p.username = u
    · rw [hu]
      simp [hs, hu]
    · have h1 : ¬ (u = p.username ∧ countFor acc p.username = 0) := by
        rintro ⟨hh, -⟩
        exact hu hh.symm
      have h2 : ¬ ((survives ub nb p && p.username = u) = true ∧ countFor acc u = 0) := by
        rintro ⟨hh, -⟩
        rw [Bool.and_eq_true] at hh
        exact hu (of_decide_eq_true hh.2)
      rw [if_neg h1, if_neg h2]
  · have hs' : survives ub nb p = false := by
      cases hb : survives ub nb p
      · rfl
      · exact absurd hb hs
    simp [hs, hs']

theorem countFor_buildShame_aux (ub nb : List String) (u : String) :
    ∀ (procs : List Proc) (acc : List (String × Int)), countFor acc u ≤ 1 →
      countFor (procs.foldl (pollStep ub nb) acc) u =
        if countFor acc u = 1 ∨ ownsSurviving ub nb procs u = true then 1 else 0 := by
  intro procs
  induction procs with
  | nil =>
      intro acc h
      by_cases hc : countFor acc u = 1
      · simp [ownsSurviving, hc]
      · have h0 : countFor acc u = 0 := by omega
        simp [ownsSurviving, hc, h0]
  | cons p procs ih =>
      intro acc h
      rw [List.foldl_cons]
      have hstep := countFor_pollStep ub nb acc p u
      have hle : countFor (pollStep ub nb acc p) u ≤ 1 := by
        rw [hstep]
        split_ifs with hcond
        · omega
        · omega
      rw [ih _ hle, hstep, ownsSurviving_cons]
      by_cases hsu : (survives ub nb p && p.username = u) = true
      · by_cases h0 : countFor acc u = 0
        · simp [hsu, h0]
        · have h1 : countFor acc u = 1 := by omega
          simp [hsu, h0, h1]
      · have hsu' : (survives ub nb p && p.username = u) = false := by
          cases hb : (survives ub nb p && p.username = u)
          · rfl
          · exact absurd hb hsu
        simp [hsu, hsu']

theorem countFor_buildShame (ub nb : List String) (procs : List Proc) (u : String) :
    countFor (buildShame ub nb procs) u =
      if ownsSurviving ub nb procs u = true then 1 else 0 := by
  rw [buildShame, countFor_buildShame_aux ub nb u procs [] (by simp [countFor_nil])]
  simp [countFor_nil]

theorem userScore_cons (ub nb : List String) (p : Proc) (procs : List Proc) (u : String) :
    userScore ub nb (p :: procs) u =
      (if (survives ub nb p && p.username = u) = true then score p else 0) +
        userScore ub nb procs u := by
  by_cases hsu : (survives ub nb p && p.username = u) = true
  · simp [userScore, List.filter_cons, hsu]
  · have hsu' : (survives ub nb p && p.username = u) = false := by
      cases hb : (survives ub nb p && p.username = u)
      · rfl
      · exact absurd hb hsu
    simp [userScore, List.filter_cons, hsu, hsu']

theorem totalFor_pollStep (ub nb : List String) (acc : List (String × Int)) (p : Proc)
    (u : String) :
    totalFor (pollStep ub nb acc p) u =
      totalFor acc u +
        (if (survives ub nb p && p.username = u) = true then score p else 0) := by
  rw [pollStep]
  by_cases hs : survives ub nb p = true
  · rw [if_pos hs, totalFor_addShame]
    by_cases hu : u = p.username
    · simp [hs, hu]
    · have hu2 : ¬ p.username = u := fun hh => hu hh.symm
      simp [hs, hu, hu2]
  · have hs' : survives ub nb p = false := by
      cases hb : survives ub nb p
      · rfl
      · exact absurd hb hs
    simp [hs, hs']

theorem totalFor_buildShame_aux (ub nb : List String) (u : String) :
    ∀ (procs : List Proc) (acc : List (String × Int)),
      totalFor (procs.foldl (pollStep ub nb) acc) u =
        totalFor acc u + userScore ub nb procs u := by
  intro procs
  induction procs with
  | nil =>
      intro acc
      simp [userScore]
  | cons p procs ih =>
      intro acc
      rw [List.foldl_cons, ih, totalFor_pollStep, userScore_cons]
      ring

theorem totalFor_buildShame (ub nb : List String) (procs : List Proc) (u : String) :
    totalFor (buildShame ub nb procs) u = userScore ub nb procs u := by
  rw [buildShame, totalFor_buildShame_aux]
  simp [totalFor_nil]

theorem length_filter_pollCycle (ub nb : List String) (procs : List Proc) (ts : Int)
    (u : String) :
    ((pollCycle ub nb procs ts).filter (fun r => r.username = u)).length =
      countFor (buildShame ub nb procs) u := by
  rw [pollCycle]
  generalize buildShame ub nb procs = l
  induction l with
  | nil => rfl
  | cons kv rest ih =>
      obtain ⟨k, v⟩ := kv
      rw [List.map_cons, List.filter_cons, countFor_cons]
      by_cases hk : k = u <;> simp [hk, ih] <;> omega

theorem mem_pollCycle (ub nb : List String) (procs : List Proc) (ts : Int)
    {r : ShameRecord} (h : r ∈ pollCycle ub nb procs ts) :
    r.timestamp = ts ∧ (r.username, r.shame) ∈ buildShame ub nb procs := by
  rw [pollCycle] at h
  obtain ⟨kv, hkv, hr⟩ := List.mem_map.mp h
  subst hr
  exact ⟨rfl, hkv⟩

theorem shame_eq_userScore (ub nb : List String) (procs : List Proc) (ts : Int)
    {r : ShameRecord} (hr : r ∈ pollCycle ub nb procs ts) :
    r.shame = userScore ub nb procs r.username := by
  have hm := (mem_pollCycle ub nb procs ts hr).2
  have hc : countFor (buildShame ub nb procs) r.username ≤ 1 := by
    rw [countFor_buildShame]
    split_ifs <;> omega
  exact (totalFor_eq_of_mem hm hc).symm.trans (totalFor_buildShame ub nb procs r.username)

/-- C1: in one poll cycle the sampler emits exactly one record per username
owning at least one surviving process (and none for other usernames), every
record carries the shared cycle timestamp, and each record's shame is the sum
of `(20 - niceness) * last_used_core_index` over that user's surviving
processes, where survival means niceness non-negative, username not ignored
and executable name not ignored. -/
theorem sampler_cycle_correct (ub nb : List String) (procs : List Proc) (ts : Int)
    (u : String) :
    (∀ r ∈ pollCycle ub nb procs ts, r.timestamp = ts) ∧
    ((pollCycle ub nb procs ts).filter (fun r => r.username = u)).length =
      (if ownsSurviving ub nb procs u = true then 1 else 0) ∧
    (∀ r ∈ pollCycle ub nb procs ts, r.shame = userScore ub nb procs r.username) := by
  refine ⟨fun r hr => (mem_pollCycle ub nb procs ts hr).1, ?_,
    fun r hr => shame_eq_userScore ub nb procs ts hr⟩
  rw [length_filter_pollCycle, countFor_buildShame]

/-- C10: provided every sampled process has niceness at most 20 and a
non-negative last-used core index, every emitted record has non-negative
shame; and a username all of whose surviving processes last ran on core 0
still gets a record emitted, with shame exactly 0. -/
theorem sampler_shame_nonneg (ub nb : List String) (procs : List Proc) (ts : Int)
    (u : String) (hb : ∀ p ∈ procs, p.nice ≤ 20 ∧ 0 ≤ p.cpu_num) :
    (∀ r ∈ pollCycle ub nb procs ts, 0 ≤ r.shame) ∧
    (ownsSurviving ub nb procs u = true →
      (∀ p ∈ procs, survives ub nb p = true → p.username = u → p.cpu_num = 0) →
      ∃ r ∈ pollCycle ub nb procs ts, r.username = u ∧ r.shame = 0) := by
  constructor
  · intro r hr
    rw [shame_eq_userScore ub nb procs ts hr, userScore]
    apply List.sum_nonneg
    intro x hx
    obtain ⟨p, hp, hpx⟩ := List.mem_map.mp hx
    obtain ⟨hpmem, -⟩ := List.mem_filter.mp hp
    obtain ⟨hn, hcpu⟩ := hb p hpmem
    rw [← hpx, score]
    exact mul_nonneg (by omega) hcpu
  · intro howns hcore
    have hcnt : countFor (buildShame ub nb procs) u = 1 := by
      rw [countFor_buildShame, if_pos howns]
    obtain ⟨s, hs⟩ := exists_mem_of_countFor_pos (le_of_eq hcnt.symm)
    refine ⟨⟨ts, u, s⟩, ?_, rfl, ?_⟩
    · rw [pollCycle]
      exact List.mem_map.mpr ⟨(u, s), hs, rfl⟩
    · have h1 : totalFor (buildShame ub nb procs) u = s :=
        totalFor_eq_of_mem hs (by omega)
    
      have h2 : userScore ub nb procs u = 0 := by
        rw [userScore]
        apply List.sum_eq_zero
        intro x hx
        obtain ⟨p, hp, hpx⟩ := List.mem_map.mp hx
        obtain ⟨hpmem, hpfil⟩ := List.mem_filter.mp hp
        rw [Bool.and_eq_true] at hpfil
        have hu : p.username = u := of_decide_eq_true hpfil.2
        rw [← hpx, score, hcore p hpmem hpfil.1 hu]
        ring
      have h3 := totalFor_buildShame ub nb procs u
      show s = 0
      omega

/-- Closed instance discharging the hypotheses of `sampler_shame_nonneg` at a
concrete snapshot: one process of user "alice" on core 0 with niceness 0. -/
theorem sampler_shame_nonneg_witness :
    (∀ p ∈ [Proc.mk "alice" "py" 0 0], p.nice ≤ 20 ∧ 0 ≤ p.cpu_num) ∧
    ((∀ r ∈ pollCycle [] [] [Proc.mk "alice" "py" 0 0] 7, 0 ≤ r.shame) ∧
      (ownsSurviving [] [] [Proc.mk "alice" "py" 0 0] "alice" = true →
        (∀ p ∈ [Proc.mk "alice" "py" 0 0],
          survives [] [] p = true → p.username = "alice" → p.cpu_num = 0) →
        ∃ r ∈ pollCycle [] [] [Proc.mk "alice" "py" 0 0] 7,
          r.username = "alice" ∧ r.shame = 0)) :=
  ⟨by decide, sampler_shame_nonneg [] [] [Proc.mk "alice" "py" 0 0] 7 "alice" (by decide)⟩

/-- Observable operations the persister performs against the sqlite store
in one cycle (src/shamed.py:55-60): connect, one INSERT per record,
commit, close. -/
inductive DbOp where
  | connect : DbOp
  | insert : ShameRecord → DbOp
  | commit : DbOp
  | close : DbOp
  deriving Repr, DecidableEq

/-- The drain loop at src/shamed.py:50-52: `while not poll_queue.empty():
write_queue.append(poll_queue.get())`, taking the FIFO head one at a time
and appending it to the local batch. -/
def drainLoop : List ShameRecord → List ShameRecord → List ShameRecord
  | [], acc => acc
  | r :: q, acc => drainLoop q (acc ++ [r])

/-- One persister cycle (src/shamed.py:49-60) over a queue snapshot:
drain everything into a local batch, then, only if the batch is non-empty,
connect, insert each record as one row, commit and close. The result is
the emptied queue, the updated store row list, and the trace of store
operations the cycle performed. -/
def writeCycle (q : List ShameRecord) (store : List ShameRecord) :
    List ShameRecord × List ShameRecord × List DbOp :=
  let batch := drainLoop q []
  if batch.isEmpty then
    ([], store, [])
  else
    ([], store ++ batch, [DbOp.connect] ++ batch.map DbOp.insert ++ [DbOp.commit, DbOp.close])

theorem drainLoop_eq (q : List ShameRecord) : ∀ acc, drainLoop q acc = acc ++ q := by
  induction q with
  | nil => intro acc; simp [drainLoop]
  | cons r q ih =>
      intro acc
      rw [drainLoop, ih]
      simp

/-- C5: in every persister cycle the queue is drained in full into a local
batch in FIFO order; an empty batch leaves the store untouched with no store
operation at all, and a non-empty batch appends every drained record as
exactly one row, in batch order, under a single connect/commit/close. -/
theorem persister_cycle_correct (q store : List ShameRecord) :
    (writeCycle q store).1 = [] ∧
    drainLoop q [] = q ∧
    (q = [] → (writeCycle q store).2.1 = store ∧ (writeCycle q store).2.2 = []) ∧
    (q ≠ [] →
      (writeCycle q store).2.1 = store ++ q ∧
      (writeCycle q store).2.2 =
        [DbOp.connect] ++ q.map DbOp.insert ++ [DbOp.commit, DbOp.close] ∧
      ((writeCycle q store).2.2.count DbOp.connect = 1 ∧
        (writeCycle q store).2.2.count DbOp.commit = 1 ∧
        (writeCycle q store).2.2.count DbOp.close = 1 ∧
        ∀ r, ((writeCycle q store).2.2.count (DbOp.insert r) = q.count r))) := by
  have hd : drainLoop q [] = q := by rw [drainLoop_eq]; simp
  have hwc : writeCycle q store =
      if q = [] then ([], store, [])
      else ([], store ++ q,
        [DbOp.connect] ++ q.map DbOp.insert ++ [DbOp.commit, DbOp.close]) := by
    rw [writeCycle]
    simp only [hd]
    cases q with
    | nil => rfl
    | cons r q' => simp [List.isEmpty_cons]
  refine ⟨?_, hd, ?_, ?_⟩
  · rw [hwc]
    split_ifs <;> rfl
  · intro hq
    rw [hwc, if_pos hq]
    exact ⟨rfl, rfl⟩
  · intro hq
    rw [hwc, if_neg hq]
    have hins : ∀ op : DbOp, (∀ r : ShameRecord, op ≠ DbOp.insert r) →
        (q.map DbOp.insert).count op = 0 := by
      intro op hop
      rw [List.count_eq_zero]
      intro hmem
      obtain ⟨r, -, hr⟩ := List.mem_map.mp hmem
      exact hop r hr.symm
    refine ⟨rfl, rfl, ?_, ?_, ?_, ?_⟩
    · rw [List.count_append, List.count_append,
        hins DbOp.connect (fun r h => by cases h)]
      decide
    · rw [List.count_append, List.count_append,
        hins DbOp.commit (fun r h => by cases h)]
      decide
    · rw [List.count_append, List.count_append,
        hins DbOp.close (fun r h => by cases h)]
      decide
    · intro r
      rw [List.count_append, List.count_append,
        List.count_map_of_injective q DbOp.insert (fun a b hab => by injection hab) r]
      have h1 : [DbOp.connect].count (DbOp.insert r) = 0 := by
        rw [List.count_eq_zero]
        intro hmem
        rcases List.mem_singleton.mp hmem with h
        cases h
      have h2 : [DbOp.commit, DbOp.close].count (DbOp.insert r) = 0 := by
        rw [List.count_eq_zero]
        intro hmem
        rcases List.mem_cons.mp hmem with h | h
        · cases h
        · rcases List.mem_singleton.mp h with h'
          cases h'
      rw [h1, h2]
      omega

/-- Closed instance of `persister_cycle_correct` on a one-record queue,
discharging the non-empty-queue hypothesis there. -/
theorem persister_cycle_correct_witness :
    (writeCycle [ShameRecord.mk 0 "alice" 5] []).1 = [] ∧
    (writeCycle [ShameRecord.mk 0 "alice" 5] []).2.1 =
      [] ++ [ShameRecord.mk 0 "alice" 5] ∧
    (writeCycle [ShameRecord.mk 0 "alice" 5] []).2.2.count DbOp.connect = 1 :=
  ⟨(persister_cycle_correct [ShameRecord.mk 0 "alice" 5] []).1,
   ((persister_cycle_correct [ShameRecord.mk 0 "alice" 5] []).2.2.2 (by decide)).1,
   ((persister_cycle_correct [ShameRecord.mk 0 "alice" 5] []).2.2.2 (by decide)).2.2.1⟩

/-- Joint state of the sampler/persister pipeline: the shared FIFO queue,
the persister's local `write_queue` batch, and the rows committed to the
store so far. -/
structure PState where
  queue : List ShameRecord
  batch : List ShameRecord
  store : List ShameRecord
  deriving Repr, DecidableEq

/-- Atomic events of the interleaved execution: the sampler's
`poll_queue.put` (src/shamed.py:36), one `poll_queue.get` of the drain
loop (src/shamed.py:52), and the commit of a whole batch
(src/shamed.py:57-59). -/
inductive PEv where
  | enq : ShameRecord → PEv
  | take : PEv
  | flush : PEv
  deriving Repr, DecidableEq

/-- Effect of one event on the pipeline state: `enq` appends to the queue
tail, `take` moves the queue head (if any) to the batch tail, `flush`
appends the whole batch to the store and clears it. -/
def pstep (s : PState) : PEv → PState
  | .enq r => ⟨s.queue ++ [r], s.batch, s.store⟩
  | .take =>
      match s.queue with
      | [] => s
      | r :: q => ⟨q, s.batch ++ [r], s.store⟩
  | .flush => ⟨s.queue, [], s.store ++ s.batch⟩

/-- Run an arbitrary interleaving of events from a given state. -/
def prun (s : PState) (evs : List PEv) : PState :=
  evs.foldl pstep s

/-- The records the sampler enqueued over a trace, in order. -/
def produced (evs : List PEv) : List ShameRecord :=
  evs.filterMap (fun e => match e with | .enq r => some r | _ => none)

/-- Sum of the shame committed for one username over a row list. -/
def sumFor (rows : List ShameRecord) (u : String) : Int :=
  ((rows.filter (fun r => r.username = u)).map (fun r => r.shame)).sum

theorem prun_conc (evs : List PEv) : ∀ s : PState,
    (prun s evs).store ++ (prun s evs).batch ++ (prun s evs).queue =
      s.store ++ s.batch ++ s.queue ++ produced evs := by
  induction evs with
  | nil =>
      intro s
      simp [prun, produced]
  | cons e evs ih =>
      intro s
      have hr : prun s (e :: evs) = prun (pstep s e) evs := rfl
      rw [hr, ih]
      cases e with
      | enq r => simp [pstep, produced, List.filterMap_cons]
      | take =>
          cases hq : s.queue with
          | nil => simp [pstep, hq, produced, List.filterMap_cons]
          | cons r q => simp [pstep, hq, produced, List.filterMap_cons]
      | flush => simp [pstep, produced, List.filterMap_cons]

/-- C3: over any interleaving of sampler enqueues with persister takes and
flushes, the store, pending batch and queue together hold exactly the
produced records (nothing lost, nothing duplicated); once every record has
been drained and flushed, the store is exactly the produced sequence, so
per-username sums of shame written equal per-username sums produced. -/
theorem queue_no_loss (evs : List PEv)
    (hq : (prun ⟨[], [], []⟩ evs).queue = [])
    (hb : (prun ⟨[], [], []⟩ evs).batch = []) :
    (prun ⟨[], [], []⟩ evs).store = produced evs ∧
    ∀ u, sumFor (prun ⟨[], [], []⟩ evs).store u = sumFor (produced evs) u := by
  have h := prun_conc evs ⟨[], [], []⟩
  rw [hq, hb] at h
  simp at h
  exact ⟨h, fun u => by rw [h]⟩

/-- Closed instance of `queue_no_loss` on the trace enqueue/take/flush,
discharging the fully-drained hypotheses there. -/
theorem queue_no_loss_witness :
    (prun ⟨[], [], []⟩ [PEv.enq ⟨1, "bob", 3⟩, PEv.take, PEv.flush]).store =
      produced [PEv.enq ⟨1, "bob", 3⟩, PEv.take, PEv.flush] ∧
    sumFor (prun ⟨[], [], []⟩ [PEv.enq ⟨1, "bob", 3⟩, PEv.take, PEv.flush]).store "bob" =
      sumFor (produced [PEv.enq ⟨1, "bob", 3⟩, PEv.take, PEv.flush]) "bob" :=
  ⟨(queue_no_loss [PEv.enq ⟨1, "bob", 3⟩, PEv.take, PEv.flush] (by decide) (by decide)).1,
   (queue_no_loss [PEv.enq ⟨1, "bob", 3⟩, PEv.take, PEv.flush] (by decide) (by decide)).2
     "bob"⟩

/-- Closed instance of `sampler_cycle_correct`, checking the emitted record
of a concrete one-process snapshot. -/
theorem sampler_cycle_correct_witness :
    ShameRecord.mk 7 "alice" 20 ∈ pollCycle [] [] [Proc.mk "alice" "py" 0 1] 7 ∧
    (ShameRecord.mk 7 "alice" 20).timestamp = 7 ∧
    (ShameRecord.mk 7 "alice" 20).shame =
      userScore [] [] [Proc.mk "alice" "py" 0 1] "alice" :=
  ⟨by decide,
   (sampler_cycle_correct [] [] [Proc.mk "alice" "py" 0 1] 7 "alice").1 _ (by decide),
   (sampler_cycle_correct [] [] [Proc.mk "alice" "py" 0 1] 7 "alice").2.2 _ (by decide)⟩

/-- The aggregation loop at src/shamed.py:80-82: fold all store rows into
a per-username shame dictionary with `shame[row[username]] += row[shame]`
(`defaultdict(int)` again, so insertion order is first-occurrence
order). -/
def aggShame (rows : List ShameRecord) : List (String × Int) :=
  rows.foldl (fun acc r => addShame acc r.username r.shame) []

/-- Insert a username into a descending-sorted list, after every element
of greater or equal key: the placement Python's stable sort gives an
element relative to earlier-ranked ones. -/
def insertDesc (key : String → Int) (x : String) : List String → List String
  | [] => [x]
  | y :: rest => if key y < key x then x :: y :: rest else y :: insertDesc key x rest

/-- Stable descending sort by key, as `sorted(keys, key=..., reverse=True)`
at src/shamed.py:92 performs (Python's sort is stable and `reverse=True`
preserves stability; a stable descending sort is unique, so this insertion
sort computes the same list). -/
def sortDesc (key : String → Int) (l : List String) : List String :=
  l.foldl (fun acc x => insertDesc key x acc) []

/-- The ranked usernames of one report: dictionary keys sorted by their
aggregated shame descending, truncated to the top 10
(src/shamed.py:92). -/
def topUsers (rows : List ShameRecord) : List String :=
  (sortDesc (totalFor (aggShame rows)) ((aggShame rows).map Prod.fst)).take 10

/-- One ranking line `[#<rank>] <username> (<shame>)` plus newline, as
written at src/shamed.py:94-96. -/
def rankLine (rank : Nat) (u : String) (s : Int) : String :=
  "[#" ++ toString rank ++ "] " ++ u ++ " (" ++ toString s ++ ")\n"

/-- The body lines of one report, in rank order 1, 2, ... -/
def reportLines (rows : List ShameRecord) : List String :=
  (topUsers rows).enum.map
    (fun iu => rankLine (iu.1 + 1) iu.2 (totalFor (aggShame rows) iu.2))

/-- The two header writes at src/shamed.py:89-91. -/
def headerStr (startStr endStr : String) : String :=
  "Wall of Shame\n" ++ ("From " ++ startStr ++ " to " ++ endStr ++ "\n\n")

/-- One reporter cycle (src/shamed.py:68-97): with zero rows the file is
never opened (the whole write block sits under `if rows:`), otherwise the
file is rewritten with header plus ranked lines. `none` means the file was
not touched. -/
def reportCycle (rows : List ShameRecord) (startStr endStr : String) : Option String :=
  if rows.isEmpty then none
  else some (headerStr startStr endStr ++ String.join (reportLines rows))

/-- Leaderboard file content after one reporter cycle, given its previous
content: `open(path, 'w')` fully replaces the content when the cycle
writes at all. -/
def leaderboardAfter (prev : String) (rows : List ShameRecord) (startStr endStr : String) :
    String :=
  match reportCycle rows startStr endStr with
  | none => prev
  | some c => c

/-- Usernames in order of first occurrence, the key order a
`defaultdict(int)` build leaves behind. -/
def firstOccs (us : List String) : List String :=
  us.foldl (fun acc u => if u ∈ acc then acc else acc ++ [u]) []

/-- Whether a username occurs in a row list. -/
def hasUser (rows : List ShameRecord) (u : String) : Bool :=
  rows.any (fun r => r.username = u)

/-- C4: with zero rows in the store, the reporter cycle does not open or
write the leaderboard file at all and the previous content survives
unchanged; the cycle completes (it yields a defined result, not an
error). -/
theorem reporter_empty_store_untouched (prev startStr endStr : String) :
    reportCycle [] startStr endStr = none ∧
    leaderboardAfter prev [] startStr endStr = prev :=
  ⟨rfl, rfl⟩

theorem sumFor_nil (u : String) : sumFor [] u = 0 := rfl

theorem sumFor_cons (r : ShameRecord) (rows : List ShameRecord) (u : String) :
    sumFor (r :: rows) u = (if r.username = u then r.shame else 0) + sumFor rows u := by
  by_cases h : r.username = u <;> simp [sumFor, List.filter_cons, h]

theorem totalFor_aggShame_aux (u : String) : ∀ (rows : List ShameRecord)
    (acc : List (String × Int)),
    totalFor (rows.foldl (fun acc r => addShame acc r.username r.shame) acc) u =
      totalFor acc u + sumFor rows u := by
  intro rows
  induction rows with
  | nil =>
      intro acc
      simp [sumFor_nil]
  | cons r rows ih =>
      intro acc
      rw [List.foldl_cons, ih, totalFor_addShame, sumFor_cons]
      by_cases h : r.username = u
      · rw [if_pos h, if_pos h.symm]
        ring
      · rw [if_neg h, if_neg (fun hh => h hh.symm)]
        ring

theorem totalFor_aggShame (rows : List ShameRecord) (u : String) :
    totalFor (aggShame rows) u = sumFor rows u := by
  rw [aggShame, totalFor_aggShame_aux]
  simp [totalFor_nil]

theorem countFor_aggShame_aux (u : String) : ∀ (rows : List ShameRecord)
    (acc : List (String × Int)), countFor acc u ≤ 1 →
    countFor (rows.foldl (fun acc r => addShame acc r.username r.shame) acc) u =
      if countFor acc u = 1 ∨ hasUser rows u = true then 1 else 0 := by
  intro rows
  induction rows with
  | nil =>
      intro acc h
      by_cases hc : countFor acc u = 1
      · simp [hasUser, hc]
      · have h0 : countFor acc u = 0 := by omega
        simp [hasUser, hc, h0]
  | cons r rows ih =>
      intro acc h
      rw [List.foldl_cons]
      have hstep := countFor_addShame acc r.username u r.shame
      have hle : countFor (addShame acc r.username r.shame) u ≤ 1 := by
        rw [hstep]
        split_ifs with hcond
        · obtain ⟨hu', h0'⟩ := hcond
          rw [hu']
          omega
        · exact h
      rw [ih _ hle, hstep]
      have hcons : hasUser (r :: rows) u = (decide (r.username = u) || hasUser rows u) := by
        simp [hasUser, List.any_cons]
      rw [hcons]
      by_cases hu : u = r.username
      · by_cases h0 : countFor acc r.username = 0
        · have : countFor acc u = 0 := by rw [hu]; exact h0
          simp [hu, h0, this]
        · have h1 : countFor acc u = 1 := by
            rw [hu]
            rw [hu] at h
            omega
          have h2 : countFor acc r.username = 1 := by rw [← hu]; exact h1
          simp [hu, h0, h1, h2]
      · have hu2 : ¬ r.username = u := fun hh => hu hh.symm
        simp [hu, hu2]

theorem countFor_aggShame (rows : List ShameRecord) (u : String) :
    countFor (aggShame rows) u = if hasUser rows u = true then 1 else 0 := by
  rw [aggShame, countFor_aggShame_aux u rows [] (by simp [countFor_nil])]
  simp [countFor_nil]

theorem count_keys_eq_countFor (l : List (String × Int)) (u : String) :
    (l.map Prod.fst).count u = countFor l u := by
  induction l with
  | nil => rfl
  | cons kv rest ih =>
      obtain ⟨k, v⟩ := kv
      rw [List.map_cons, countFor_cons]
      by_cases h : k = u
      · rw [List.count_cons]
        simp [h, ih]
        omega
      · rw [List.count_cons]
        simp [h, ih]

theorem keys_nodup_aggShame (rows : List ShameRecord) :
    ((aggShame rows).map Prod.fst).Nodup := by
  rw [List.nodup_iff_count_le_one]
  intro u
  rw [count_keys_eq_countFor, countFor_aggShame]
  split_ifs <;> omega

theorem insertDesc_perm (key : String → Int) (x : String) (l : List String) :
    (insertDesc key x l).Perm (x :: l) := by
  induction l with
  | nil => exact List.Perm.refl _
  | cons y rest ih =>
      rw [insertDesc]
      split_ifs with h
      · exact List.Perm.refl _
      · exact (ih.cons y).trans (List.Perm.swap x y rest)

theorem sortDesc_perm_aux (key : String → Int) : ∀ (l acc : List String),
    (l.foldl (fun acc x => insertDesc key x acc) acc).Perm (acc ++ l) := by
  intro l
  induction l with
  | nil =>
      intro acc
      simp
  | cons x l ih =>
      intro acc
      rw [List.foldl_cons]
      refine (ih _).trans ?_
      have h1 : (insertDesc key x acc).Perm (x :: acc) := insertDesc_perm key x acc
      have h2 : (insertDesc key x acc ++ l).Perm ((x :: acc) ++ l) := h1.append_right l
      refine h2.trans ?_
      have h3 : ((x :: acc) ++ l) = x :: (acc ++ l) := rfl
      rw [h3]
      exact List.perm_middle.symm

theorem sortDesc_perm (key : String → Int) (l : List String) :
    (sortDesc key l).Perm l := by
  have := sortDesc_perm_aux key l []
  simpa [sortDesc] using this

theorem mem_insertDesc {key : String → Int} {x z : String} {l : List String}
    (h : z ∈ insertDesc key x l) : z = x ∨ z ∈ l :=
  List.mem_cons.mp ((insertDesc_perm key x l).mem_iff.mp h)

theorem insertDesc_sorted (key : String → Int) (x : String) (l : List String)
    (h : l.Pairwise (fun a b => key b ≤ key a)) :
    (insertDesc key x l).Pairwise (fun a b => key b ≤ key a) := by
  induction l with
  | nil => simp [insertDesc]
  | cons y rest ih =>
      rw [insertDesc]
      obtain ⟨hy, hrest⟩ := List.pairwise_cons.mp h
      split_ifs with hlt
      · refine List.pairwise_cons.mpr ⟨?_, h⟩
        intro z hz
        rcases List.mem_cons.mp hz with hz | hz
        · rw [hz]; omega
        · have := hy z hz
          omega
      · refine List.pairwise_cons.mpr ⟨?_, ih hrest⟩
        intro z hz
        rcases mem_insertDesc hz with hz | hz
        · rw [hz]; omega
        · exact hy z hz

theorem sortDesc_sorted_aux (key : String → Int) : ∀ (l acc : List String),
    acc.Pairwise (fun a b => key b ≤ key a) →
    (l.foldl (fun acc x => insertDesc key x acc) acc).Pairwise
      (fun a b => key b ≤ key a) := by
  intro l
  induction l with
  | nil => intro acc h; exact h
  | cons x l ih =>
      intro acc h
      rw [List.foldl_cons]
      exact ih _ (insertDesc_sorted key x acc h)

theorem sortDesc_sorted (key : String → Int) (l : List String) :
    (sortDesc key l).Pairwise (fun a b => key b ≤ key a) :=
  sortDesc_sorted_aux key l [] (List.Pairwise.nil)

theorem filter_all_lt (key : String → Int) (c : Int) (l : List String)
    (hall : ∀ z ∈ l, key z < c) : l.filter (fun y => key y = c) = [] := by
  rw [List.filter_eq_nil]
  intro a ha
  have h := hall a ha
  simp only [decide_eq_true_eq]
  omega

theorem insertDesc_filter_eq (key : String → Int) (x : String) (l : List String) (c : Int)
    (hx : key x = c) (hs : l.Pairwise (fun a b => key b ≤ key a)) :
    (insertDesc key x l).filter (fun y => key y = c) =
      l.filter (fun y => key y = c) ++ [x] := by
  induction l with
  | nil => simp [insertDesc, hx]
  | cons y rest ih =>
      obtain ⟨hy, hrest⟩ := List.pairwise_cons.mp hs
      rw [insertDesc]
      split_ifs with hlt
      · have hall : ∀ z ∈ y :: rest, key z < c := by
          intro z hz
          rcases List.mem_cons.mp hz with hz | hz
          · rw [hz]; omega
          · have := hy z hz
            omega
        have hynec : ¬ key y = c := by
          have := hall y (List.mem_cons_self _ _)
          omega
        have hrestnil : rest.filter (fun z => key z = c) = [] :=
          filter_all_lt key c rest (fun z hz => hall z (List.mem_cons_of_mem _ hz))
        simp [List.filter_cons, hx, hynec, hrestnil]
      · rw [List.filter_cons, List.filter_cons]
        by_cases hyc : key y = c <;> simp [hyc, ih hrest]

theorem insertDesc_filter_ne (key : String → Int) (x : String) (l : List String) (c : Int)
    (hx : ¬ key x = c) :
    (insertDesc key x l).filter (fun y => key y = c) = l.filter (fun y => key y = c) := by
  induction l with
  | nil => simp [insertDesc, hx]
  | cons y rest ih =>
      rw [insertDesc]
      split_ifs with hlt
      · simp [List.filter_cons, hx]
      · rw [List.filter_cons, List.filter_cons]
        by_cases hyc : key y = c <;> simp [hyc, ih]

theorem sortDesc_filter_aux (key : String → Int) (c : Int) :
    ∀ (l acc : List String), acc.Pairwise (fun a b => key b ≤ key a) →
      (l.foldl (fun acc x => insertDesc key x acc) acc).filter (fun y => key y = c) =
        acc.filter (fun y => key y = c) ++ l.filter (fun y => key y = c) := by
  intro l
  induction l with
  | nil =>
      intro acc h
      simp
  | cons x l ih =>
      intro acc h
      rw [List.foldl_cons, ih _ (insertDesc_sorted key x acc h), List.filter_cons]
      by_cases hx : key x = c
      · rw [insertDesc_filter_eq key x acc c hx h]
        simp [hx]
      · rw [insertDesc_filter_ne key x acc c hx]
        simp [hx]

theorem sortDesc_filter (key : String → Int) (l : List String) (c : Int) :
    (sortDesc key l).filter (fun y => key y = c) = l.filter (fun y => key y = c) := by
  rw [sortDesc, sortDesc_filter_aux key c l [] List.Pairwise.nil]
  rfl

theorem keys_addShame (l : List (String × Int)) (u : String) (s : Int) :
    (addShame l u s).map Prod.fst =
      if countFor l u = 0 then l.map Prod.fst ++ [u] else l.map Prod.fst := by
  induction l with
  | nil => simp [addShame, countFor_nil]
  | cons kv rest ih =>
      obtain ⟨k, v⟩ := kv
      by_cases hk : k = u
      · subst hk
        rw [addShame_cons_eq]
        have : ¬ countFor ((k, v) :: rest) k = 0 := by
          rw [countFor_cons, if_pos rfl]
          omega
        rw [if_neg this]
        rfl
      · rw [addShame_cons_ne k v rest u s hk]
        have hcnt : countFor ((k, v) :: rest) u = countFor rest u := by
          rw [countFor_cons, if_neg hk]
          omega
        rw [hcnt, List.map_cons, List.map_cons, ih]
        by_cases h0 : countFor rest u = 0 <;> simp [h0]

theorem mem_keys_iff_countFor (l : List (String × Int)) (u : String) :
    u ∈ l.map Prod.fst ↔ ¬ countFor l u = 0 := by
  rw [← count_keys_eq_countFor]
  constructor
  · intro h
    have := List.count_pos_iff_mem.mpr h
    omega
  · intro h
    exact List.count_pos_iff_mem.mp (by omega)

theorem keys_aggShame_aux : ∀ (rows : List ShameRecord) (acc : List (String × Int)),
    ((rows.foldl (fun acc r => addShame acc r.username r.shame) acc).map Prod.fst) =
      (rows.map (fun r => r.username)).foldl
        (fun acc u => if u ∈ acc then acc else acc ++ [u]) (acc.map Prod.fst) := by
  intro rows
  induction rows with
  | nil => intro acc; rfl
  | cons r rows ih =>
      intro acc
      rw [List.foldl_cons, ih, List.map_cons, List.foldl_cons, keys_addShame]
      by_cases h0 : countFor acc r.username = 0
      · have : ¬ r.username ∈ acc.map Prod.fst := fun hm =>
          (mem_keys_iff_countFor acc r.username).mp hm h0
        rw [if_pos h0, if_neg this]
      · have : r.username ∈ acc.map Prod.fst :=
          (mem_keys_iff_countFor acc r.username).mpr h0
        rw [if_neg h0, if_pos this]

theorem keys_aggShame (rows : List ShameRecord) :
    (aggShame rows).map Prod.fst = firstOccs (rows.map (fun r => r.username)) := by
  rw [aggShame, keys_aggShame_aux rows [], firstOccs]
  rfl

/-- Fifteen store rows with distinct usernames and strictly decreasing
shame 150, 140, ..., 10, the top-10 truncation instance named by the
specification. -/
def rows15 : List ShameRecord :=
  [⟨0, "u01", 150⟩, ⟨0, "u02", 140⟩, ⟨0, "u03", 130⟩, ⟨0, "u04", 120⟩, ⟨0, "u05", 110⟩,
   ⟨0, "u06", 100⟩, ⟨0, "u07", 90⟩, ⟨0, "u08", 80⟩, ⟨0, "u09", 70⟩, ⟨0, "u10", 60⟩,
   ⟨0, "u11", 50⟩, ⟨0, "u12", 40⟩, ⟨0, "u13", 30⟩, ⟨0, "u14", 20⟩, ⟨0, "u15", 10⟩]

theorem mem_topUsers_hasUser (rows : List ShameRecord) (u : String)
    (hu : u ∈ topUsers rows) : hasUser rows u = true := by
  rw [topUsers] at hu
  have h1 : u ∈ sortDesc (totalFor (aggShame rows)) ((aggShame rows).map Prod.fst) :=
    List.mem_of_mem_take hu
  have h2 : u ∈ (aggShame rows).map Prod.fst :=
    (sortDesc_perm (totalFor (aggShame rows)) _).mem_iff.mp h1
  have h3 : ¬ countFor (aggShame rows) u = 0 :=
    (mem_keys_iff_countFor (aggShame rows) u).mp h2
  rw [countFor_aggShame] at h3
  by_cases hhas : hasUser rows u = true
  · exact hhas
  · rw [if_neg hhas] at h3
    exact absurd rfl h3

theorem hasUser_mem_keys (rows : List ShameRecord) (u : String)
    (hu : hasUser rows u = true) : u ∈ (aggShame rows).map Prod.fst := by
  apply (mem_keys_iff_countFor (aggShame rows) u).mpr
  rw [countFor_aggShame, if_pos hu]
  omega

/-- C2: for a non-empty store, one reporter cycle fully overwrites the
leaderboard with the header followed by one line `[#<rank>] <username>
(<shame>)` per ranked user; at most 10 users are kept, they are ordered by
aggregated shame descending, every kept user occurs in the rows, every
user left out aggregates no more shame than any kept user, each printed
shame is the sum over all rows for that username, and on the concrete
15-user store with shame 150, 140, ..., 10 the output is exactly the 10
highest, ranked 1-10 in descending order. -/
theorem reporter_cycle_correct (rows : List ShameRecord) (prev s e : String)
    (h : rows ≠ []) :
    reportCycle rows s e = some (headerStr s e ++ String.join (reportLines rows)) ∧
    leaderboardAfter prev rows s e = headerStr s e ++ String.join (reportLines rows) ∧
    (topUsers rows).length ≤ 10 ∧
    (topUsers rows).Pairwise (fun a b => sumFor rows b ≤ sumFor rows a) ∧
    (∀ u ∈ topUsers rows, hasUser rows u = true) ∧
    (∀ u, hasUser rows u = true → u ∉ topUsers rows →
      ∀ v ∈ topUsers rows, sumFor rows u ≤ sumFor rows v) ∧
    reportLines rows =
      (topUsers rows).enum.map
        (fun iu => rankLine (iu.1 + 1) iu.2 (sumFor rows iu.2)) ∧
    (topUsers rows15 =
      ["u01", "u02", "u03", "u04", "u05", "u06", "u07", "u08", "u09", "u10"] ∧
    reportLines rows15 =
      ["[#1] u01 (150)\n", "[#2] u02 (140)\n", "[#3] u03 (130)\n", "[#4] u04 (120)\n",
       "[#5] u05 (110)\n", "[#6] u06 (100)\n", "[#7] u07 (90)\n", "[#8] u08 (80)\n",
       "[#9] u09 (70)\n", "[#10] u10 (60)\n"]) := by
  have hne : rows.isEmpty = false := by
    cases rows with
    | nil => exact absurd rfl h
    | cons a l => rfl
  have hrc : reportCycle rows s e =
      some (headerStr s e ++ String.join (reportLines rows)) := by
    rw [reportCycle, hne]
    rfl
  refine ⟨hrc, ?_, ?_, ?_, mem_topUsers_hasUser rows, ?_, ?_, by decide, by decide⟩
  · rw [leaderboardAfter, hrc]
  · rw [topUsers, List.length_take]
    omega
  · have hs := sortDesc_sorted (totalFor (aggShame rows)) ((aggShame rows).map Prod.fst)
    have hp : (topUsers rows).Pairwise
        (fun a b => totalFor (aggShame rows) b ≤ totalFor (aggShame rows) a) :=
      hs.sublist (List.take_sublist 10 _)
    refine hp.imp ?_
    intro a b hab
    rw [totalFor_aggShame, totalFor_aggShame] at hab
    exact hab
  · intro u hu hnotin v hv
    have hukeys : u ∈ (aggShame rows).map Prod.fst := hasUser_mem_keys rows u hu
    have husort : u ∈ sortDesc (totalFor (aggShame rows)) ((aggShame rows).map Prod.fst) :=
      (sortDesc_perm (totalFor (aggShame rows)) _).mem_iff.mpr hukeys
    have hsplit := List.take_append_drop 10
      (sortDesc (totalFor (aggShame rows)) ((aggShame rows).map Prod.fst))
    have hudrop : u ∈ (sortDesc (totalFor (aggShame rows))
        ((aggShame rows).map Prod.fst)).drop 10 := by
      rw [← hsplit] at husort
      rcases List.mem_append.mp husort with hcase | hcase
      · exact absurd hcase (by rw [topUsers] at hnotin; exact hnotin)
      · exact hcase
    have hs := sortDesc_sorted (totalFor (aggShame rows)) ((aggShame rows).map Prod.fst)
    rw [← hsplit] at hs
    have hrel := (List.pairwise_append.mp hs).2.2 v (by rw [topUsers] at hv; exact hv)
      u hudrop
    rw [totalFor_aggShame, totalFor_aggShame] at hrel
    exact hrel
  · rw [reportLines]
    simp [totalFor_aggShame]

/-- Closed instance discharging the non-empty-store hypothesis of
`reporter_cycle_correct` on a one-row store. -/
theorem reporter_cycle_correct_witness :
    ([ShameRecord.mk 3 "carol" 12] ≠ ([] : List ShameRecord)) ∧
    reportCycle [ShameRecord.mk 3 "carol" 12] "S" "E" =
      some (headerStr "S" "E" ++ String.join (reportLines [ShameRecord.mk 3 "carol" 12])) :=
  ⟨by decide, (reporter_cycle_correct [ShameRecord.mk 3 "carol" 12] "" "S" "E" (by decide)).1⟩

/-- C8: against a fixed non-empty store, two reporter runs differing only
in the end-of-window timestamp write byte-identical content apart from
that timestamp: both are the fixed header prefix with their own end string
followed by one shared body. -/
theorem reporter_idempotent (rows : List ShameRecord) (s e₁ e₂ : String)
    (h : rows ≠ []) :
    reportCycle rows s e₁ =
      some (("Wall of Shame\n" ++ ("From " ++ s ++ " to " ++ e₁ ++ "\n\n")) ++
        String.join (reportLines rows)) ∧
    reportCycle rows s e₂ =
      some (("Wall of Shame\n" ++ ("From " ++ s ++ " to " ++ e₂ ++ "\n\n")) ++
        String.join (reportLines rows)) := by
  have hne : rows.isEmpty = false := by
    cases rows with
    | nil => exact absurd rfl h
    | cons a l => rfl
  constructor
  · rw [reportCycle, hne]
    rfl
  · rw [reportCycle, hne]
    rfl

/-- Closed instance discharging the non-empty-store hypothesis of
`reporter_idempotent`: two runs over the same one-row store share their
body, differing only in the end timestamp. -/
theorem reporter_idempotent_witness :
    reportCycle [ShameRecord.mk 3 "dave" 4] "S" "E1" =
      some (("Wall of Shame\n" ++ ("From " ++ "S" ++ " to " ++ "E1" ++ "\n\n")) ++
        String.join (reportLines [ShameRecord.mk 3 "dave" 4])) ∧
    reportCycle [ShameRecord.mk 3 "dave" 4] "S" "E2" =
      some (("Wall of Shame\n" ++ ("From " ++ "S" ++ " to " ++ "E2" ++ "\n\n")) ++
        String.join (reportLines [ShameRecord.mk 3 "dave" 4])) :=
  reporter_idempotent [ShameRecord.mk 3 "dave" 4] "S" "E1" "E2" (by decide)

theorem sublist_take_of_nodup {α : Type} : ∀ (l : List α) (n : Nat) (u v : α),
    l.Nodup → ([u, v]).Sublist l → v ∈ l.take n → ([u, v]).Sublist (l.take n) := by
  intro l
  induction l with
  | nil =>
      intro n u v _ _ hv
      rw [List.take_nil] at hv
      cases hv
  | cons x l' ih =>
      intro n u v hnd hsub hv
      cases n with
      | zero =>
          rw [List.take_zero] at hv
          cases hv
      | succ m =>
          rw [List.take_succ_cons] at hv ⊢
          obtain ⟨hx, hnd'⟩ := List.nodup_cons.mp hnd
          cases hsub with
          | cons a h' =>
              have hvl' : v ∈ l' := h'.subset (by simp)
              have hvx : ¬ v = x := fun he => hx (he ▸ hvl')
              have hv' : v ∈ l'.take m := by
                rcases List.mem_cons.mp hv with hcase | hcase
                · exact absurd hcase hvx
                · exact hcase
              exact (ih m u v hnd' h' hv').cons x
          | cons₂ a h' =>
              have hvl' : v ∈ l' := h'.subset (by simp)
              have hvx : ¬ v = x := fun he => hx (he ▸ hvl')
              have hv' : v ∈ l'.take m := by
                rcases List.mem_cons.mp hv with hcase | hcase
                · exact absurd hcase hvx
                · exact hcase
              exact (List.singleton_sublist.mpr hv').cons₂ x

/-- C9: the reporter's tie-break is deterministic and fixed: when two
usernames aggregate equal shame and the first one first-occurs earlier in
the row sequence, and the second one made the leaderboard, then the first
one is on the leaderboard too, ranked before the second — the stable
descending sort preserves the aggregation dictionary's first-occurrence
insertion order among equal keys. -/
theorem reporter_tiebreak_stable (rows : List ShameRecord) (u v : String)
    (heq : sumFor rows u = sumFor rows v)
    (horder : ([u, v]).Sublist (firstOccs (rows.map (fun r => r.username))))
    (hv : v ∈ topUsers rows) :
    ([u, v]).Sublist (topUsers rows) := by
  have hkeys := keys_aggShame rows
  rw [← hkeys] at horder
  have hkeq : totalFor (aggShame rows) v = totalFor (aggShame rows) u := by
    rw [totalFor_aggShame, totalFor_aggShame, heq]
  have hnodupkeys := keys_nodup_aggShame rows
  have hfilid : ([u, v]).filter
      (fun y => totalFor (aggShame rows) y = totalFor (aggShame rows) u) = [u, v] := by
    simp [List.filter_cons, hkeq]
  have hfil : ([u, v]).Sublist (((aggShame rows).map Prod.fst).filter
      (fun y => totalFor (aggShame rows) y = totalFor (aggShame rows) u)) := by
    have := horder.filter
      (fun y => decide (totalFor (aggShame rows) y = totalFor (aggShame rows) u))
    rw [hfilid] at this
    exact this
  rw [← sortDesc_filter (totalFor (aggShame rows)) ((aggShame rows).map Prod.fst)
    (totalFor (aggShame rows) u)] at hfil
  have hsorted : ([u, v]).Sublist
      (sortDesc (totalFor (aggShame rows)) ((aggShame rows).map Prod.fst)) :=
    hfil.trans (List.filter_sublist _)
  have hnodups : (sortDesc (totalFor (aggShame rows))
      ((aggShame rows).map Prod.fst)).Nodup :=
    ((sortDesc_perm (totalFor (aggShame rows)) _).nodup_iff).mpr hnodupkeys
  rw [topUsers] at hv ⊢
  exact sublist_take_of_nodup _ 10 u v hnodups hsorted hv

/-- Closed instance discharging the hypotheses of
`reporter_tiebreak_stable` on two equal-shame rows. -/
theorem reporter_tiebreak_stable_witness :
    (sumFor [ShameRecord.mk 0 "ann" 5, ShameRecord.mk 0 "ben" 5] "ann" =
      sumFor [ShameRecord.mk 0 "ann" 5, ShameRecord.mk 0 "ben" 5] "ben" ∧
     "ben" ∈ topUsers [ShameRecord.mk 0 "ann" 5, ShameRecord.mk 0 "ben" 5]) ∧
    (["ann", "ben"]).Sublist
      (topUsers [ShameRecord.mk 0 "ann" 5, ShameRecord.mk 0 "ben" 5]) :=
  ⟨⟨by decide, by decide⟩,
   reporter_tiebreak_stable [ShameRecord.mk 0 "ann" 5, ShameRecord.mk 0 "ben" 5]
     "ann" "ben" (by decide) (by decide) (by decide)⟩

/-- Side effects `shamed(args)` performs after validation passes
(src/shamed.py:104-128): reset the store (DROP TABLE / CREATE TABLE) and
start the three loop threads. -/
inductive StartupEffect where
  | resetStore : StartupEffect
  | startThread : String → StartupEffect
  deriving Repr, DecidableEq

/-- The ordered effects of a successful startup (src/shamed.py:104-128). -/
def shamedEffects : List StartupEffect :=
  [StartupEffect.resetStore, StartupEffect.startThread "poll",
   StartupEffect.startThread "write", StartupEffect.startThread "report"]

/-- Startup as `main` performs it (src/shamed.py:222-247): validate the
three intervals first — `sys.exit(message)` prints the message and exits
with code 1 — and only if all pass run `shamed(args)`, which resets the
store and starts the threads. An `Except.error` carries the exit message
and exit code; effects exist only in the `Except.ok` result. -/
def mainStartup (p w r : Int) : Except (String × Nat) (List StartupEffect) :=
  if p ≤ 0 then Except.error ("Poll interval must be 1 second or greater.", 1)
  else if w ≤ 0 then Except.error ("Write interval must be 1 second or greater.", 1)
  else if r ≤ 0 then Except.error ("Leaderboard interval must be 1 second or greater.", 1)
  else Except.ok shamedEffects

/-- C7: any non-positive interval makes startup fail with the dedicated
descriptive message and exit code 1 (non-zero), before any side effect:
the result is an error, never an effect list, so the store is not reset
and no thread starts. -/
theorem startup_validation (p w r : Int) (h : p ≤ 0 ∨ w ≤ 0 ∨ r ≤ 0) :
    mainStartup p w r =
      Except.error
        ((if p ≤ 0 then "Poll interval must be 1 second or greater."
          else if w ≤ 0 then "Write interval must be 1 second or greater."
          else "Leaderboard interval must be 1 second or greater."), 1) ∧
    (1 : Nat) ≠ 0 ∧
    ∀ effs, mainStartup p w r ≠ Except.ok effs := by
  rw [mainStartup]
  by_cases hp : p ≤ 0
  · rw [if_pos hp, if_pos hp]
    exact ⟨rfl, by omega, fun effs hcon => by cases hcon⟩
  · rw [if_neg hp, if_neg hp]
    by_cases hw : w ≤ 0
    · rw [if_pos hw, if_pos hw]
      exact ⟨rfl, by omega, fun effs hcon => by cases hcon⟩
    · rw [if_neg hw, if_neg hw]
      have hr : r ≤ 0 := by
        rcases h with h | h | h
        · exact absurd h hp
        · exact absurd h hw
        · exact h
      rw [if_pos hr]
      exact ⟨rfl, by omega, fun effs hcon => by cases hcon⟩

/-- Closed instance of `startup_validation` at poll_interval = 0 with the
other intervals at their defaults, discharging the non-positivity
hypothesis there. -/
theorem startup_validation_witness :
    mainStartup 0 60 300 =
      Except.error ("Poll interval must be 1 second or greater.", 1) ∧
    mainStartup 0 60 300 ≠ Except.ok shamedEffects := by
  have h := startup_validation 0 60 300 (Or.inl (by decide))
  constructor
  · have h1 := h.1
    rw [if_pos (by decide : (0 : Int) ≤ 0)] at h1
    exact h1
  · exact h.2.2 shamedEffects

/-- One process handle of the snapshot: the process's attributes together
with whether the process is still alive when the sampler reads them. -/
structure ProcH where
  proc : Proc
  alive : Bool
  deriving Repr, DecidableEq

/-- Reading one process's attributes (`proc.nice()`, `proc.username()`,
`proc.name()`, `proc.cpu_num()` at src/shamed.py:30-32): psutil raises
NoSuchProcess when the process disappeared between `process_iter`'s yield
and the attribute read. -/
def readProc (p : ProcH) : Except String Proc :=
  if p.alive then Except.ok p.proc else Except.error "NoSuchProcess"

/-- The scoring loop exactly as written at src/shamed.py:29-32: the loop
body carries no try/except, so the first failing attribute read propagates
out of the loop (and out of `poll_thread_main`, terminating the sampler
thread). -/
def pollLoopE (ub nb : List String) :
    List ProcH → List (String × Int) → Except String (List (String × Int))
  | [], acc => Except.ok acc
  | p :: rest, acc =>
      match readProc p with
      | Except.error e => Except.error e
      | Except.ok q => pollLoopE ub nb rest (pollStep ub nb acc q)

/-- One poll cycle over a snapshot with possibly-vanishing processes. -/
def pollCycleE (ub nb : List String) (procs : List ProcH) (ts : Int) :
    Except String (List ShameRecord) :=
  match pollLoopE ub nb procs [] with
  | Except.error e => Except.error e
  | Except.ok shame => Except.ok (shame.map (fun kv => ⟨ts, kv.1, kv.2⟩))

/-- C6 fails on the code: with a process that vanished mid-snapshot the
cycle aborts with the uncaught NoSuchProcess and the remaining healthy
process is never scored — no record is emitted at all — whereas with both
processes alive the same snapshot scores both users. The claim's
skip-and-continue behavior would require the first run to still emit
frank's record. -/
theorem sampler_vanished_aborts_cycle :
    pollCycleE [] [] [ProcH.mk (Proc.mk "erin" "py" 0 2) false,
      ProcH.mk (Proc.mk "frank" "py" 0 3) true] 5 = Except.error "NoSuchProcess" ∧
    pollCycleE [] [] [ProcH.mk (Proc.mk "erin" "py" 0 2) true,
      ProcH.mk (Proc.mk "frank" "py" 0 3) true] 5 =
      Except.ok [ShameRecord.mk 5 "erin" 40, ShameRecord.mk 5 "frank" 60] := by
  constructor
  · rfl
  · rfl
